import Mathlib

/-!
Shallow embedding of the query pipeline of the kirsal-alan-listesi repository.

Strings are modelled as lists of Unicode characters (`Str := List Char`).
The embedded functions follow the TypeScript source:

* `normalizeTurkish`  — src/utils/textUtils.ts, lines 11-26
* `searchedData`      — src/App.tsx, lines 91-105
* `filterPred` / `applyFilters` / `filteredData` — src/App.tsx, lines 108-118
* `getOptions`        — src/App.tsx, lines 121-140
* `totalPages` / `currentData` — src/App.tsx, lines 148-153
* `pageButtons` / `pageRequests` — src/components/Pagination.tsx

JavaScript built-ins used by the source (`toLocaleLowerCase('tr-TR')`,
`String.prototype.includes`, `Array.prototype.slice`, `Set`,
`Array.prototype.sort` with `localeCompare(·, 'tr')`) are modelled
explicitly below, restricted to the alphabet the application works with.
-/

namespace KirsalAlan

/-- A JavaScript string, modelled as its list of Unicode scalar values. -/
abbrev Str := List Char

/-! ### Text normalizer (src/utils/textUtils.ts) -/

/-- ASCII lowercasing of a single character: `A`..`Z` map to `a`..`z`,
everything else is unchanged.  This is the behaviour of
`toLocaleLowerCase` on the plain-ASCII part of the alphabet. -/
def asciiLower (c : Char) : Char :=
  if 65 ≤ c.toNat ∧ c.toNat ≤ 90 then Char.ofNat (c.toNat + 32) else c

/-- Modelled: `String.prototype.toLocaleLowerCase('tr-TR')` on one character,
restricted to the Turkish/ASCII alphabet the application uses.  The
Turkish-specific rules are `İ → i` and `I → ı`; the remaining uppercase
Turkish letters lowercase to their dotted/cedilla lowercase forms, and
ASCII uppercase letters lowercase as usual.  Characters outside this
alphabet are left unchanged. -/
def trLowerChar (c : Char) : Char :=
  if c = 'İ' then 'i'
  else if c = 'I' then 'ı'
  else if c = 'Ü' then 'ü'
  else if c = 'Ö' then 'ö'
  else if c = 'Ç' then 'ç'
  else if c = 'Ğ' then 'ğ'
  else if c = 'Ş' then 'ş'
  else asciiLower c

/-- Modelled: `String.prototype.replace(/a/g, b)` for single characters:
every occurrence of `a` is replaced by `b`. -/
def replaceAll (a b : Char) (s : Str) : Str :=
  s.map fun c => if c = a then b else c

/-- `normalizeTurkish` from src/utils/textUtils.ts lines 11-26: on falsy
(empty) input return the empty string; otherwise lowercase with the
`tr-TR` locale and then apply the six global replacements
`ğ→g`, `ü→u`, `ş→s`, `ı→i`, `ö→o`, `ç→c` in source order. -/
def normalizeTurkish (text : Str) : Str :=
  if text = [] then []
  else
    replaceAll 'ç' 'c' (replaceAll 'ö' 'o' (replaceAll 'ı' 'i'
      (replaceAll 'ş' 's' (replaceAll 'ü' 'u' (replaceAll 'ğ' 'g'
        (text.map trLowerChar))))))

/-- The folding table of the six replacements, as a single character map. -/
def foldChar (c : Char) : Char :=
  if c = 'ğ' then 'g'
  else if c = 'ü' then 'u'
  else if c = 'ş' then 's'
  else if c = 'ı' then 'i'
  else if c = 'ö' then 'o'
  else if c = 'ç' then 'c'
  else c

/-- The full per-character normalization: locale lowercasing followed by
the folding table. -/
def normChar (c : Char) : Char := foldChar (trLowerChar c)

theorem toNat_ofNat_valid {n : Nat} (h : n < 55296) : (Char.ofNat n).toNat = n := by
  have hv : n.isValidChar := Or.inl h
  rw [Char.ofNat, dif_pos hv]
  simp [Char.ofNatAux, Char.toNat, UInt32.toNat, BitVec.toNat_ofNatLt]

theorem ne_of_toNat_ne {a b : Char} (h : a.toNat ≠ b.toNat) : a ≠ b :=
  fun he => h (by rw [he])

/-- The six replacements of `normalizeTurkish`, performed in source order,
amount to mapping each character through `normChar`. -/
theorem normalizeTurkish_eq_map (text : Str) :
    normalizeTurkish text = text.map normChar := by
  unfold normalizeTurkish replaceAll
  split
  · simp_all
  · simp only [List.map_map]
    apply List.map_congr_left
    intro c _
    unfold Function.comp
    unfold normChar
    generalize trLowerChar c = d
    by_cases h1 : d = 'ğ'
    · subst h1; decide
    simp only [if_neg h1]
    by_cases h2 : d = 'ü'
    · subst h2; decide
    simp only [if_neg h2]
    by_cases h3 : d = 'ş'
    · subst h3; decide
    simp only [if_neg h3]
    by_cases h4 : d = 'ı'
    · subst h4; decide
    simp only [if_neg h4]
    by_cases h5 : d = 'ö'
    · subst h5; decide
    simp only [if_neg h5]
    by_cases h6 : d = 'ç'
    · subst h6; decide
    simp only [foldChar, if_neg h1, if_neg h2, if_neg h3, if_neg h4, if_neg h5,
      if_neg h6]

/-- Case analysis on the output of `trLowerChar`: it is one of the seven
lowercase Turkish letters, an ASCII lowercase letter, or the input itself
(which then matched none of the lowercasing rules). -/
theorem trLowerChar_out (c : Char) :
    trLowerChar c ∈ (['i', 'ı', 'ü', 'ö', 'ç', 'ğ', 'ş'] : List Char) ∨
    (97 ≤ (trLowerChar c).toNat ∧ (trLowerChar c).toNat ≤ 122) ∨
    (trLowerChar c = c ∧ ¬(65 ≤ c.toNat ∧ c.toNat ≤ 90) ∧
      c ≠ 'İ' ∧ c ≠ 'I' ∧ c ≠ 'Ü' ∧ c ≠ 'Ö' ∧ c ≠ 'Ç' ∧ c ≠ 'Ğ' ∧ c ≠ 'Ş') := by
  unfold trLowerChar asciiLower
  split_ifs with h1 h2 h3 h4 h5 h6 h7 h8
  · exact Or.inl (by decide)
  · exact Or.inl (by decide)
  · exact Or.inl (by decide)
  · exact Or.inl (by decide)
  · exact Or.inl (by decide)
  · exact Or.inl (by decide)
  · exact Or.inl (by decide)
  · refine Or.inr (Or.inl ?_)
    rw [toNat_ofNat_valid (by omega)]
    omega
  · exact Or.inr (Or.inr ⟨rfl, h8, h1, h2, h3, h4, h5, h6, h7⟩)

/-- `normChar` is idempotent. -/
theorem normChar_fixed (c : Char) : normChar (normChar c) = normChar c := by
  unfold normChar
  rcases trLowerChar_out c with hmem | ⟨hlo, hhi⟩ | ⟨heq, _, _, _, _, _, _, _, _⟩
  · simp only [List.mem_cons, List.not_mem_nil, or_false] at hmem
    rcases hmem with h | h | h | h | h | h | h <;> rw [h] <;> decide
  · set d := trLowerChar c with hd
    have e1 : d ≠ 'ğ' := ne_of_toNat_ne (by rw [(by decide : ('ğ').toNat = 287)]; omega)
    have e2 : d ≠ 'ü' := ne_of_toNat_ne (by rw [(by decide : ('ü').toNat = 252)]; omega)
    have e3 : d ≠ 'ş' := ne_of_toNat_ne (by rw [(by decide : ('ş').toNat = 351)]; omega)
    have e4 : d ≠ 'ı' := ne_of_toNat_ne (by rw [(by decide : ('ı').toNat = 305)]; omega)
    have e5 : d ≠ 'ö' := ne_of_toNat_ne (by rw [(by decide : ('ö').toNat = 246)]; omega)
    have e6 : d ≠ 'ç' := ne_of_toNat_ne (by rw [(by decide : ('ç').toNat = 231)]; omega)
    have hfold : foldChar d = d := by
      simp only [foldChar, if_neg e1, if_neg e2, if_neg e3, if_neg e4, if_neg e5,
        if_neg e6]
    have g1 : d ≠ 'İ' := ne_of_toNat_ne (by rw [(by decide : ('İ').toNat = 304)]; omega)
    have g2 : d ≠ 'I' := ne_of_toNat_ne (by rw [(by decide : ('I').toNat = 73)]; omega)
    have g3 : d ≠ 'Ü' := ne_of_toNat_ne (by rw [(by decide : ('Ü').toNat = 220)]; omega)
    have g4 : d ≠ 'Ö' := ne_of_toNat_ne (by rw [(by decide : ('Ö').toNat = 214)]; omega)
    have g5 : d ≠ 'Ç' := ne_of_toNat_ne (by rw [(by decide : ('Ç').toNat = 199)]; omega)
    have g6 : d ≠ 'Ğ' := ne_of_toNat_ne (by rw [(by decide : ('Ğ').toNat = 286)]; omega)
    have g7 : d ≠ 'Ş' := ne_of_toNat_ne (by rw [(by decide : ('Ş').toNat = 350)]; omega)
    have hlow : trLowerChar d = d := by
      simp only [trLowerChar, asciiLower, if_neg g1, if_neg g2, if_neg g3, if_neg g4,
        if_neg g5, if_neg g6, if_neg g7]
      rw [if_neg (by omega)]
    rw [hfold, hlow, hfold]
  · rw [heq]
    by_cases k1 : c = 'ğ'
    · subst k1; decide
    by_cases k2 : c = 'ü'
    · subst k2; decide
    by_cases k3 : c = 'ş'
    · subst k3; decide
    by_cases k4 : c = 'ı'
    · subst k4; decide
    by_cases k5 : c = 'ö'
    · subst k5; decide
    by_cases k6 : c = 'ç'
    · subst k6; decide
    have hf : foldChar c = c := by
      simp only [foldChar, if_neg k1, if_neg k2, if_neg k3, if_neg k4, if_neg k5,
        if_neg k6]
    rw [hf, heq]
    exact hf

/-- C8: `normalize` is idempotent, and normalizes the empty string to itself.
Purity is inherent in the embedding: `normalizeTurkish` is a function of its
input string alone. -/
theorem C8_normalize_idempotent :
    (∀ s : Str, normalizeTurkish (normalizeTurkish s) = normalizeTurkish s) ∧
    normalizeTurkish [] = [] := by
  constructor
  · intro s
    rw [normalizeTurkish_eq_map, normalizeTurkish_eq_map, List.map_map]
    apply List.map_congr_left
    intro c _
    exact normChar_fixed c
  · rfl

/-- C1: `normalizeTurkish` is exactly Turkish-locale lowercasing followed by
the fixed folding table (İ/I/ı/i→i, Ü/ü→u, Ö/ö→o, Ç/ç→c, Ğ/ğ→g, Ş/ş→s),
`normalize("İstanbul") == normalize("istanbul") == normalize("İSTANBUL")`,
and empty input yields the empty string. -/
theorem C1_normalize_spec :
    (∀ text : Str, normalizeTurkish text = text.map fun c => foldChar (trLowerChar c)) ∧
    (normChar 'İ' = 'i' ∧ normChar 'I' = 'i' ∧ normChar 'ı' = 'i' ∧ normChar 'i' = 'i' ∧
     normChar 'Ü' = 'u' ∧ normChar 'ü' = 'u' ∧
     normChar 'Ö' = 'o' ∧ normChar 'ö' = 'o' ∧
     normChar 'Ç' = 'c' ∧ normChar 'ç' = 'c' ∧
     normChar 'Ğ' = 'g' ∧ normChar 'ğ' = 'g' ∧
     normChar 'Ş' = 's' ∧ normChar 'ş' = 's') ∧
    (normalizeTurkish ['İ', 's', 't', 'a', 'n', 'b', 'u', 'l'] =
       normalizeTurkish ['i', 's', 't', 'a', 'n', 'b', 'u', 'l'] ∧
     normalizeTurkish ['İ', 'S', 'T', 'A', 'N', 'B', 'U', 'L'] =
       normalizeTurkish ['i', 's', 't', 'a', 'n', 'b', 'u', 'l']) ∧
    normalizeTurkish [] = [] := by
  refine ⟨fun text => normalizeTurkish_eq_map text, by decide, by decide, rfl⟩

/-! ### Data model (src/types.ts) -/

/-- A settlement record: five string fields (src/types.ts). -/
structure YerlesimYeri where
  il : Str
  ilce : Str
  belediye : Str
  mahalle : Str
  durum : Str
deriving DecidableEq

/-- The five filterable field names. -/
inductive FieldKey where
  | il
  | ilce
  | belediye
  | mahalle
  | durum
deriving DecidableEq, Fintype

/-- Field projection of a record. -/
def YerlesimYeri.get (r : YerlesimYeri) : FieldKey → Str
  | .il => r.il
  | .ilce => r.ilce
  | .belediye => r.belediye
  | .mahalle => r.mahalle
  | .durum => r.durum

/-- The filter state: one string per filterable field, empty string meaning
no constraint (src/App.tsx lines 19-25). -/
structure Filters where
  il : Str
  ilce : Str
  belediye : Str
  mahalle : Str
  durum : Str
deriving DecidableEq

/-- Constraint projection of a filter state. -/
def Filters.get (f : Filters) : FieldKey → Str
  | .il => f.il
  | .ilce => f.ilce
  | .belediye => f.belediye
  | .mahalle => f.mahalle
  | .durum => f.durum

/-- The filter state with every constraint empty. -/
def Filters.empty : Filters := ⟨[], [], [], [], []⟩

/-- Modelled: `hay.includes(needle)` — substring containment. -/
def includesSub (hay needle : Str) : Bool := decide (needle <:+: hay)

/-! ### Global search (src/App.tsx lines 91-105) -/

/-- The search stage: with an empty query the data is returned unchanged,
otherwise the query is normalized once and a record is retained when any of
its five normalized fields contains the normalized query. -/
def searchedData (data : List YerlesimYeri) (q : Str) : List YerlesimYeri :=
  if q = [] then data
  else
    let normalizedQuery := normalizeTurkish q
    data.filter fun item =>
      includesSub (normalizeTurkish item.il) normalizedQuery ||
      includesSub (normalizeTurkish item.ilce) normalizedQuery ||
      includesSub (normalizeTurkish item.belediye) normalizedQuery ||
      includesSub (normalizeTurkish item.mahalle) normalizedQuery ||
      includesSub (normalizeTurkish item.durum) normalizedQuery

/-! ### Column filters (src/App.tsx lines 108-118) -/

/-- The per-record predicate of the column-filter stage: exact match for
il/ilce/belediye/durum, normalized substring containment for mahalle;
an empty constraint always passes. -/
def filterPred (f : Filters) (item : YerlesimYeri) : Bool :=
  (decide (f.il = []) || decide (item.il = f.il)) &&
  (decide (f.ilce = []) || decide (item.ilce = f.ilce)) &&
  (decide (f.belediye = []) || decide (item.belediye = f.belediye)) &&
  (decide (f.mahalle = []) ||
    includesSub (normalizeTurkish item.mahalle) (normalizeTurkish f.mahalle)) &&
  (decide (f.durum = []) || decide (item.durum = f.durum))

/-- The column-filter stage applied to an arbitrary record list. -/
def applyFilters (records : List YerlesimYeri) (f : Filters) : List YerlesimYeri :=
  records.filter (filterPred f)

/-- `filteredData` of src/App.tsx: the column filters applied on top of the
output of the search stage. -/
def filteredData (data : List YerlesimYeri) (q : Str) (f : Filters) :
    List YerlesimYeri :=
  applyFilters (searchedData data q) f

/-! ### Specification-side predicates -/

/-- A record matches a query when at least one of its five fields, once
normalized, contains the normalized query as a substring. -/
def matchesQuery (q : Str) (item : YerlesimYeri) : Prop :=
  ∃ k : FieldKey, normalizeTurkish q <:+: normalizeTurkish (item.get k)

instance (q : Str) (item : YerlesimYeri) : Decidable (matchesQuery q item) := by
  unfold matchesQuery; infer_instance

/-- A record satisfies a filter state when every field carrying a non-empty
constraint is satisfied: exact equality for il/ilce/belediye/durum and
normalized substring containment for mahalle. -/
def satisfiesFilters (f : Filters) (item : YerlesimYeri) : Prop :=
  ∀ k : FieldKey, f.get k ≠ [] →
    (if k = .mahalle then
      normalizeTurkish (f.get k) <:+: normalizeTurkish item.mahalle
    else item.get k = f.get k)

instance (f : Filters) (item : YerlesimYeri) : Decidable (satisfiesFilters f item) := by
  unfold satisfiesFilters; infer_instance

theorem filterPred_iff (f : Filters) (item : YerlesimYeri) :
    filterPred f item = true ↔ satisfiesFilters f item := by
  unfold filterPred satisfiesFilters includesSub
  simp only [Bool.and_eq_true, Bool.or_eq_true, decide_eq_true_eq]
  constructor
  · rintro ⟨⟨⟨⟨h1, h2⟩, h3⟩, h4⟩, h5⟩ k hk
    cases k <;> simp only [YerlesimYeri.get, Filters.get] at hk ⊢ <;> tauto
  · intro h
    refine ⟨⟨⟨⟨?_, ?_⟩, ?_⟩, ?_⟩, ?_⟩
    · rcases eq_or_ne f.il [] with he | he
      · exact Or.inl he
      · exact Or.inr (by simpa using h .il he)
    · rcases eq_or_ne f.ilce [] with he | he
      · exact Or.inl he
      · exact Or.inr (by simpa using h .ilce he)
    · rcases eq_or_ne f.belediye [] with he | he
      · exact Or.inl he
      · exact Or.inr (by simpa using h .belediye he)
    · rcases eq_or_ne f.mahalle [] with he | he
      · exact Or.inl he
      · exact Or.inr (by simpa using h .mahalle he)
    · rcases eq_or_ne f.durum [] with he | he
      · exact Or.inl he
      · exact Or.inr (by simpa using h .durum he)

theorem bool_eq_of_iff {x y : Bool} (h : x = true ↔ y = true) : x = y := by
  cases x <;> cases y <;> simp_all

/-- C2: with an empty query the search stage is the identity; with a
non-empty query it retains exactly the records one of whose five normalized
fields contains the normalized query, preserving order (a `filter`). -/
theorem C2_search_spec :
    (∀ D : List YerlesimYeri, searchedData D [] = D) ∧
    (∀ (D : List YerlesimYeri) (q : Str), q ≠ [] →
      searchedData D q = D.filter fun item => decide (matchesQuery q item)) := by
  constructor
  · intro D; rfl
  · intro D q hq
    unfold searchedData
    rw [if_neg hq]
    apply List.filter_congr
    intro item _
    apply bool_eq_of_iff
    simp only [Bool.or_eq_true, includesSub, decide_eq_true_eq, matchesQuery]
    constructor
    · rintro ((((h | h) | h) | h) | h)
      · exact ⟨.il, h⟩
      · exact ⟨.ilce, h⟩
      · exact ⟨.belediye, h⟩
      · exact ⟨.mahalle, h⟩
      · exact ⟨.durum, h⟩
    · rintro ⟨k, hk⟩
      cases k <;> simp only [YerlesimYeri.get] at hk <;> tauto

/-- Closed witness for C2 at a concrete dataset and query. -/
theorem C2_search_spec_witness :
    (['a'] : Str) ≠ [] ∧
    searchedData [⟨['a'], [], [], [], []⟩, ⟨['b'], [], [], [], []⟩] ['a'] =
      List.filter (fun item => decide (matchesQuery ['a'] item))
        [⟨['a'], [], [], [], []⟩, ⟨['b'], [], [], [], []⟩] :=
  ⟨by decide, C2_search_spec.2 [⟨['a'], [], [], [], []⟩, ⟨['b'], [], [], [], []⟩]
    ['a'] (by decide)⟩

/-- C3: the column-filter stage retains exactly the records satisfying every
non-empty constraint (exact match on il/ilce/belediye/durum, normalized
containment on mahalle, combined by AND), and it is applied to the output of
the search stage. -/
theorem C3_filters_spec :
    (∀ (data : List YerlesimYeri) (q : Str) (f : Filters),
      filteredData data q f = applyFilters (searchedData data q) f) ∧
    (∀ (records : List YerlesimYeri) (f : Filters),
      applyFilters records f =
        records.filter fun item => decide (satisfiesFilters f item)) := by
  constructor
  · intro data q f; rfl
  · intro records f
    apply List.filter_congr
    intro item _
    apply bool_eq_of_iff
    rw [filterPred_iff]
    simp

/-! ### Algebra of the column-filter stage -/

/-- Union of two filter states: per field, the first state's constraint if
it is non-empty, the second state's otherwise. -/
def Filters.union (f1 f2 : Filters) : Filters :=
  ⟨if f1.il = [] then f2.il else f1.il,
   if f1.ilce = [] then f2.ilce else f1.ilce,
   if f1.belediye = [] then f2.belediye else f1.belediye,
   if f1.mahalle = [] then f2.mahalle else f1.mahalle,
   if f1.durum = [] then f2.durum else f1.durum⟩

/-- Two filter states constrain disjoint sets of fields: no field carries a
non-empty constraint in both. -/
def Filters.DisjointFields (f1 f2 : Filters) : Prop :=
  ∀ k : FieldKey, f1.get k = [] ∨ f2.get k = []

instance (f1 f2 : Filters) : Decidable (f1.DisjointFields f2) := by
  unfold Filters.DisjointFields; infer_instance

theorem Filters.get_union (f1 f2 : Filters) (k : FieldKey) :
    (f1.union f2).get k = if f1.get k = [] then f2.get k else f1.get k := by
  cases k <;> rfl

theorem satisfiesFilters_union {f1 f2 : Filters} (hd : f1.DisjointFields f2)
    (item : YerlesimYeri) :
    satisfiesFilters (f1.union f2) item ↔
      satisfiesFilters f1 item ∧ satisfiesFilters f2 item := by
  unfold satisfiesFilters
  constructor
  · intro h
    constructor
    · intro k hk
      have hu := h k
      rw [Filters.get_union, if_neg hk] at hu
      exact hu hk
    · intro k hk
      rcases hd k with h1 | h1
      · have hu := h k
        rw [Filters.get_union, if_pos h1] at hu
        exact hu hk
      · exact absurd h1 hk
  · rintro ⟨ha, hb⟩ k hk
    rw [Filters.get_union] at hk ⊢
    by_cases h1 : f1.get k = []
    · rw [if_pos h1] at hk ⊢
      exact hb k hk
    · rw [if_neg h1] at hk ⊢
      exact ha k hk

/-- C7: the empty filter state is an identity for `applyFilters`, and two
filter stages over disjoint field sets compose into the union filter state. -/
theorem C7_applyFilters_algebra :
    (∀ D : List YerlesimYeri, applyFilters D Filters.empty = D) ∧
    (∀ (D : List YerlesimYeri) (f1 f2 : Filters), f1.DisjointFields f2 →
      applyFilters (applyFilters D f1) f2 = applyFilters D (f1.union f2)) := by
  constructor
  · intro D
    unfold applyFilters
    have h : ∀ item, filterPred Filters.empty item = true := by
      intro item
      simp [filterPred, Filters.empty]
    calc D.filter (filterPred Filters.empty)
        = D.filter fun _ => true := List.filter_congr fun a _ => h a
      _ = D := List.filter_true D
  · intro D f1 f2 hd
    unfold applyFilters
    rw [List.filter_filter]
    apply List.filter_congr
    intro item _
    apply bool_eq_of_iff
    simp only [Bool.and_eq_true, filterPred_iff]
    rw [and_comm]
    exact (satisfiesFilters_union hd item).symm

/-- Closed witness for C7 at concrete disjoint filter states. -/
theorem C7_applyFilters_algebra_witness :
    (Filters.mk ['a'] [] [] [] []).DisjointFields (Filters.mk [] [] [] [] ['x']) ∧
    applyFilters
        (applyFilters [⟨['a'], [], [], [], ['x']⟩, ⟨['b'], [], [], [], ['x']⟩]
          (Filters.mk ['a'] [] [] [] []))
        (Filters.mk [] [] [] [] ['x']) =
      applyFilters [⟨['a'], [], [], [], ['x']⟩, ⟨['b'], [], [], [], ['x']⟩]
        ((Filters.mk ['a'] [] [] [] []).union (Filters.mk [] [] [] [] ['x'])) :=
  ⟨by decide, C7_applyFilters_algebra.2
    [⟨['a'], [], [], [], ['x']⟩, ⟨['b'], [], [], [], ['x']⟩]
    (Filters.mk ['a'] [] [] [] []) (Filters.mk [] [] [] [] ['x']) (by decide)⟩

/-! ### Turkish collation (modelling localeCompare with locale 'tr') -/

/-- Modelled: the primary collation weight of a character under the Turkish
('tr') locale: the Latin alphabet with `ç`, `ğ`, `ı`, `ö`, `ş`, `ü`
interleaved at their Turkish alphabet positions (and `I` the uppercase of
`ı`, `İ` the uppercase of `i`).  Characters outside the alphabet are ordered
by code point after the letters. -/
def trPrimary : Char → Nat
  | 'a' | 'A' => 0
  | 'b' | 'B' => 1
  | 'c' | 'C' => 2
  | 'ç' | 'Ç' => 3
  | 'd' | 'D' => 4
  | 'e' | 'E' => 5
  | 'f' | 'F' => 6
  | 'g' | 'G' => 7
  | 'ğ' | 'Ğ' => 8
  | 'h' | 'H' => 9
  | 'ı' | 'I' => 10
  | 'i' | 'İ' => 11
  | 'j' | 'J' => 12
  | 'k' | 'K' => 13
  | 'l' | 'L' => 14
  | 'm' | 'M' => 15
  | 'n' | 'N' => 16
  | 'o' | 'O' => 17
  | 'ö' | 'Ö' => 18
  | 'p' | 'P' => 19
  | 'q' | 'Q' => 20
  | 'r' | 'R' => 21
  | 's' | 'S' => 22
  | 'ş' | 'Ş' => 23
  | 't' | 'T' => 24
  | 'u' | 'U' => 25
  | 'ü' | 'Ü' => 26
  | 'v' | 'V' => 27
  | 'w' | 'W' => 28
  | 'x' | 'X' => 29
  | 'y' | 'Y' => 30
  | 'z' | 'Z' => 31
  | c => 32 + c.toNat

/-- Modelled: the case (tertiary) collation weight: lowercase sorts before
uppercase. -/
def trCase (c : Char) : Nat :=
  if c = 'İ' ∨ c = 'I' ∨ c = 'Ü' ∨ c = 'Ö' ∨ c = 'Ç' ∨ c = 'Ğ' ∨ c = 'Ş' ∨
      (65 ≤ c.toNat ∧ c.toNat ≤ 90) then 1
  else 0

/-- Lexicographic comparison of weight sequences. -/
def lexNat : List Nat → List Nat → Ordering
  | [], [] => .eq
  | [], _ :: _ => .lt
  | _ :: _, [] => .gt
  | a :: as, b :: bs =>
    if a < b then .lt else if b < a then .gt else lexNat as bs

/-- Modelled: the sign of `a.localeCompare(b, 'tr')`: the primary weight
sequences are compared lexicographically and full ties are broken by the
case weights. -/
def trCompare (a b : Str) : Ordering :=
  match lexNat (a.map trPrimary) (b.map trPrimary) with
  | .eq => lexNat (a.map trCase) (b.map trCase)
  | o => o

/-- The non-strict comparator order: `a` does not come strictly after `b`. -/
def trLe (a b : Str) : Prop := trCompare a b ≠ .gt

instance : DecidableRel trLe := fun a b => by unfold trLe; infer_instance

theorem lexNat_eq_iff : ∀ (x y : List Nat), lexNat x y = .eq ↔ x = y := by
  intro x
  induction x with
  | nil => intro y; cases y <;> simp [lexNat]
  | cons a as ih =>
    intro y
    cases y with
    | nil => simp [lexNat]
    | cons b bs =>
      unfold lexNat
      split_ifs with h1 h2
      · simp only [List.cons.injEq]
        constructor
        · intro h; cases h
        · rintro ⟨h, _⟩; omega
      · simp only [List.cons.injEq]
        constructor
        · intro h; cases h
        · rintro ⟨h, _⟩; omega
      · have hab : a = b := by omega
        simp [hab, ih bs]

theorem lexNat_swap : ∀ (x y : List Nat), (lexNat x y).swap = lexNat y x := by
  intro x
  induction x with
  | nil => intro y; cases y <;> rfl
  | cons a as ih =>
    intro y
    cases y with
    | nil => rfl
    | cons b bs =>
      unfold lexNat
      split_ifs with h1 h2 h3 <;> first
        | rfl
        | omega
        | exact ih bs

theorem lexNat_lt_trans :
    ∀ (x y z : List Nat), lexNat x y = .lt → lexNat y z = .lt → lexNat x z = .lt := by
  intro x
  induction x with
  | nil =>
    intro y z h1 h2
    cases y with
    | nil => exact h2
    | cons b bs =>
      cases z with
      | nil => simp [lexNat] at h2
      | cons c cs => rfl
  | cons a as ih =>
    intro y z h1 h2
    cases y with
    | nil => simp [lexNat] at h1
    | cons b bs =>
      cases z with
      | nil => simp [lexNat] at h2
      | cons c cs =>
        unfold lexNat at h1 h2 ⊢
        split_ifs at h1 h2 ⊢ with g1 g2 g3 g4 g5 g6 <;>
          first
            | rfl
            | omega
            | exact ih bs cs h1 h2

theorem lexNat_le_trans {x y z : List Nat} (h1 : lexNat x y ≠ .gt)
    (h2 : lexNat y z ≠ .gt) : lexNat x z ≠ .gt := by
  cases hxy : lexNat x y with
  | gt => exact absurd hxy h1
  | eq =>
    rw [lexNat_eq_iff] at hxy
    rw [hxy]
    exact h2
  | lt =>
    cases hyz : lexNat y z with
    | gt => exact absurd hyz h2
    | eq =>
      rw [lexNat_eq_iff] at hyz
      rw [← hyz]
      simp [hxy]
    | lt => simp [lexNat_lt_trans x y z hxy hyz]

theorem trCompare_swap (a b : Str) : (trCompare a b).swap = trCompare b a := by
  unfold trCompare
  cases h : lexNat (a.map trPrimary) (b.map trPrimary) with
  | eq =>
    have h2 : lexNat (b.map trPrimary) (a.map trPrimary) = .eq := by
      rw [← lexNat_swap, h]; rfl
    rw [h2]
    exact lexNat_swap _ _
  | lt =>
    have h2 : lexNat (b.map trPrimary) (a.map trPrimary) = .gt := by
      rw [← lexNat_swap, h]; rfl
    rw [h2]
    rfl
  | gt =>
    have h2 : lexNat (b.map trPrimary) (a.map trPrimary) = .lt := by
      rw [← lexNat_swap, h]; rfl
    rw [h2]
    rfl

theorem trLe_total (a b : Str) : trLe a b ∨ trLe b a := by
  unfold trLe
  by_cases h : trCompare a b = .gt
  · right
    rw [← trCompare_swap, h]
    decide
  · exact Or.inl h

theorem ord_lt_of {o : Ordering} (h1 : o ≠ .gt) (h2 : o ≠ .eq) : o = .lt := by
  cases o <;> simp_all

/-- `trCompare` either settles on the primary weights or, when those tie,
on the case weights. -/
theorem trCompare_cases (a b : Str) :
    (trCompare a b = lexNat (a.map trPrimary) (b.map trPrimary) ∧
      lexNat (a.map trPrimary) (b.map trPrimary) ≠ .eq) ∨
    (a.map trPrimary = b.map trPrimary ∧
      trCompare a b = lexNat (a.map trCase) (b.map trCase)) := by
  unfold trCompare
  cases h : lexNat (a.map trPrimary) (b.map trPrimary) with
  | lt => exact Or.inl ⟨rfl, by decide⟩
  | eq => exact Or.inr ⟨(lexNat_eq_iff _ _).mp h, rfl⟩
  | gt => exact Or.inl ⟨rfl, by decide⟩

theorem trLe_trans {a b c : Str} (h1 : trLe a b) (h2 : trLe b c) : trLe a c := by
  unfold trLe at h1 h2 ⊢
  rcases trCompare_cases a b with ⟨e1, n1⟩ | ⟨p1, e1⟩ <;>
    rcases trCompare_cases b c with ⟨e2, n2⟩ | ⟨p2, e2⟩ <;>
    rcases trCompare_cases a c with ⟨e3, n3⟩ | ⟨p3, e3⟩ <;>
    rw [e1] at h1 <;> rw [e2] at h2 <;> rw [e3]
  · exact lexNat_le_trans h1 h2
  · have l1 := ord_lt_of h1 n1
    rw [p3] at l1
    have hgt : lexNat (b.map trPrimary) (c.map trPrimary) = .gt := by
      rw [← lexNat_swap, l1]; rfl
    exact absurd hgt h2
  · rw [← p2]
    exact h1
  · have he : lexNat (a.map trPrimary) (b.map trPrimary) = .eq :=
      (lexNat_eq_iff _ _).mpr (p3.trans p2.symm)
    exact absurd he n1
  · rw [p1]
    exact h2
  · have he : lexNat (b.map trPrimary) (c.map trPrimary) = .eq :=
      (lexNat_eq_iff _ _).mpr (p1.symm.trans p3)
    exact absurd he n2
  · have he : lexNat (a.map trPrimary) (c.map trPrimary) = .eq :=
      (lexNat_eq_iff _ _).mpr (p1.trans p2)
    exact absurd he n3
  · exact lexNat_le_trans h1 h2

instance : IsTotal Str trLe := ⟨trLe_total⟩

instance : IsTrans Str trLe := ⟨fun _ _ _ => trLe_trans⟩

/-! ### Facet option derivation (src/App.tsx lines 121-140) -/

/-- The key list of `Object.entries` over a full filter state, in property
insertion order. -/
def allKeys : List FieldKey := [.il, .ilce, .belediye, .mahalle, .durum]

/-- One check of the `Object.entries(otherFilters).every` loop in
`getOptions`: an empty constraint passes, the mahalle constraint is checked
by normalized containment, the rest by exact equality. -/
def matchesOther (f : Filters) (item : YerlesimYeri) (k : FieldKey) : Bool :=
  if f.get k = [] then true
  else if k = .mahalle then
    includesSub (normalizeTurkish item.mahalle) (normalizeTurkish (f.get k))
  else decide (item.get k = f.get k)

/-- Modelled: insertion of one value into a JavaScript `Set`: the first
occurrence is kept and insertion order is preserved. -/
def insertUnique (acc : List Str) (v : Str) : List Str :=
  if v ∈ acc then acc else acc ++ [v]

/-- Modelled: `Array.from(new Set(l))`. -/
def setDedup (l : List Str) : List Str := l.foldl insertUnique []

/-- `getOptions` of src/App.tsx lines 121-140: filter the search-stage
output by all other fields' constraints, collect the distinct values of the
target field, drop empty values (every value is a string in the typed
model, so the `typeof` check always passes), and sort with the Turkish
comparator. -/
def getOptions (searched : List YerlesimYeri) (f : Filters) (key : FieldKey) :
    List Str :=
  let otherKeys := allKeys.filter fun k => decide (k ≠ key)
  let dataForOptions := searched.filter fun item => otherKeys.all (matchesOther f item)
  let uniqueValues := setDedup (dataForOptions.map fun item => item.get key)
  List.insertionSort trLe (uniqueValues.filter fun v => decide (v ≠ []))

theorem mem_foldl_insertUnique :
    ∀ (l : List Str) (acc : List Str) (a : Str),
      a ∈ l.foldl insertUnique acc ↔ a ∈ acc ∨ a ∈ l := by
  intro l
  induction l with
  | nil => intro acc a; simp
  | cons b bs ih =>
    intro acc a
    rw [List.foldl_cons, ih]
    unfold insertUnique
    split_ifs with h
    · simp only [List.mem_cons]
      constructor
      · rintro (h' | h')
        · exact Or.inl h'
        · exact Or.inr (Or.inr h')
      · rintro (h' | h' | h')
        · exact Or.inl h'
        · exact Or.inl (h' ▸ h)
        · exact Or.inr h'
    · simp [List.mem_append, List.mem_cons, or_assoc]

theorem nodup_foldl_insertUnique :
    ∀ (l : List Str) (acc : List Str), acc.Nodup → (l.foldl insertUnique acc).Nodup := by
  intro l
  induction l with
  | nil => intro acc h; simpa using h
  | cons b bs ih =>
    intro acc h
    rw [List.foldl_cons]
    apply ih
    unfold insertUnique
    split_ifs with hb
    · exact h
    · refine List.Nodup.append h (List.nodup_singleton b) ?_
      intro a ha hab
      rw [List.mem_singleton] at hab
      exact hb (hab ▸ ha)

theorem mem_setDedup (l : List Str) (a : Str) : a ∈ setDedup l ↔ a ∈ l := by
  unfold setDedup
  rw [mem_foldl_insertUnique]
  simp

theorem nodup_setDedup (l : List Str) : (setDedup l).Nodup :=
  nodup_foldl_insertUnique l [] List.nodup_nil

/-- A record satisfies every non-empty constraint of the filter state other
than the one on `key`. -/
def satisfiesOthers (f : Filters) (key : FieldKey) (r : YerlesimYeri) : Prop :=
  ∀ k : FieldKey, k ≠ key → f.get k ≠ [] →
    (if k = .mahalle then
      normalizeTurkish (f.get k) <:+: normalizeTurkish r.mahalle
    else r.get k = f.get k)

instance (f : Filters) (key : FieldKey) (r : YerlesimYeri) :
    Decidable (satisfiesOthers f key r) := by
  unfold satisfiesOthers; infer_instance

theorem matchesOther_iff (f : Filters) (item : YerlesimYeri) (k : FieldKey) :
    matchesOther f item k = true ↔
      (f.get k ≠ [] → (if k = .mahalle then
        normalizeTurkish (f.get k) <:+: normalizeTurkish item.mahalle
      else item.get k = f.get k)) := by
  unfold matchesOther includesSub
  split_ifs <;> simp_all

theorem mem_allKeys (k : FieldKey) : k ∈ allKeys := by
  cases k <;> simp [allKeys]

theorem all_otherKeys_iff (f : Filters) (key : FieldKey) (item : YerlesimYeri) :
    ((allKeys.filter fun k => decide (k ≠ key)).all (matchesOther f item) = true) ↔
      satisfiesOthers f key item := by
  rw [List.all_eq_true]
  unfold satisfiesOthers
  constructor
  · intro h k hk hne
    have hm := h k (by rw [List.mem_filter]; exact ⟨mem_allKeys k, by simp [hk]⟩)
    rw [matchesOther_iff] at hm
    exact hm hne
  · intro h k hkmem
    rw [List.mem_filter] at hkmem
    rw [matchesOther_iff]
    intro hne
    exact h k (by simpa using hkmem.2) hne

theorem mem_getOptions (searched : List YerlesimYeri) (f : Filters)
    (key : FieldKey) (v : Str) :
    v ∈ getOptions searched f key ↔
      v ≠ [] ∧ ∃ r ∈ searched, satisfiesOthers f key r ∧ r.get key = v := by
  unfold getOptions
  rw [List.mem_insertionSort, List.mem_filter, mem_setDedup]
  simp only [List.mem_map, List.mem_filter, decide_eq_true_eq]
  constructor
  · rintro ⟨⟨r, ⟨hr, hall⟩, rfl⟩, hne⟩
    exact ⟨hne, r, hr, (all_otherKeys_iff f key r).mp hall, rfl⟩
  · rintro ⟨hne, r, hr, hsat, rfl⟩
    exact ⟨⟨r, ⟨hr, (all_otherKeys_iff f key r).mpr hsat⟩, rfl⟩, hne⟩

/-- C4: a facet option list consists of exactly the non-empty distinct
values of the target field over the records passing all other fields'
constraints, without duplicates, sorted ascending by the Turkish
comparator. -/
theorem C4_options_spec (searched : List YerlesimYeri) (f : Filters)
    (key : FieldKey) :
    (∀ v : Str, v ∈ getOptions searched f key ↔
      v ≠ [] ∧ ∃ r ∈ searched, satisfiesOthers f key r ∧ r.get key = v) ∧
    (getOptions searched f key).Nodup ∧
    (getOptions searched f key).Sorted trLe := by
  refine ⟨mem_getOptions searched f key, ?_, ?_⟩
  · unfold getOptions
    rw [(List.perm_insertionSort trLe _).nodup_iff]
    exact (nodup_setDedup _).filter _
  · exact List.sorted_insertionSort trLe _

theorem matchesOther_congr {f1 f2 : Filters} (item : YerlesimYeri)
    {k : FieldKey} (h : f1.get k = f2.get k) :
    matchesOther f1 item k = matchesOther f2 item k := by
  unfold matchesOther
  rw [h]

/-- C9: the option list for a facet field does not depend on that field's
own filter constraint. -/
theorem C9_options_own_filter_independent (searched : List YerlesimYeri)
    (f1 f2 : Filters) (key : FieldKey)
    (h : ∀ k : FieldKey, k ≠ key → f1.get k = f2.get k) :
    getOptions searched f1 key = getOptions searched f2 key := by
  unfold getOptions
  have hfil : (searched.filter fun item =>
      (allKeys.filter fun k => decide (k ≠ key)).all (matchesOther f1 item)) =
      searched.filter fun item =>
        (allKeys.filter fun k => decide (k ≠ key)).all (matchesOther f2 item) := by
    apply List.filter_congr
    intro item _
    apply bool_eq_of_iff
    rw [List.all_eq_true, List.all_eq_true]
    constructor
    · intro ha k hk
      rw [← matchesOther_congr item (h k (by simpa using (List.mem_filter.mp hk).2))]
      exact ha k hk
    · intro ha k hk
      rw [matchesOther_congr item (h k (by simpa using (List.mem_filter.mp hk).2))]
      exact ha k hk
  dsimp only
  rw [hfil]

/-- Closed witness for C9: two filter states differing only in the `il`
constraint produce the same `il` facet options. -/
theorem C9_options_own_filter_independent_witness :
    (∀ k : FieldKey, k ≠ .il →
      (Filters.mk ['a'] [] [] [] []).get k = (Filters.mk ['b'] [] [] [] []).get k) ∧
    getOptions [⟨['a'], ['x'], [], [], []⟩, ⟨['b'], ['y'], [], [], []⟩]
        (Filters.mk ['a'] [] [] [] []) .il =
      getOptions [⟨['a'], ['x'], [], [], []⟩, ⟨['b'], ['y'], [], [], []⟩]
        (Filters.mk ['b'] [] [] [] []) .il :=
  ⟨by decide, C9_options_own_filter_independent
    [⟨['a'], ['x'], [], [], []⟩, ⟨['b'], ['y'], [], [], []⟩]
    (Filters.mk ['a'] [] [] [] []) (Filters.mk ['b'] [] [] [] []) .il (by decide)⟩

/-! ### Pagination (src/App.tsx lines 148-153) -/

/-- Page size constant (src/App.tsx line 9). -/
def ITEMS_PER_PAGE : Nat := 50

/-- Modelled: `Array.prototype.slice(start, stop)` with integer arguments,
following the ECMAScript index normalization: a negative index counts from
the end of the array, and indices clamp to `[0, length]`. -/
def jsSlice {α : Type} (l : List α) (start stop : Int) : List α :=
  let len : Int := l.length
  let s : Int := if start < 0 then max (len + start) 0 else min start len
  let e : Int := if stop < 0 then max (len + stop) 0 else min stop len
  (l.take e.toNat).drop s.toNat

/-- `totalPages` (src/App.tsx line 148): `Math.ceil(length / ITEMS_PER_PAGE)`. -/
def totalPages {α : Type} (filtered : List α) : Nat :=
  (filtered.length + ITEMS_PER_PAGE - 1) / ITEMS_PER_PAGE

/-- `currentData` (src/App.tsx lines 150-153): the slice of the filtered
data starting at `(currentPage - 1) * ITEMS_PER_PAGE`. -/
def currentData {α : Type} (filtered : List α) (currentPage : Int) : List α :=
  let startIndex : Int := (currentPage - 1) * ITEMS_PER_PAGE
  jsSlice filtered startIndex (startIndex + ITEMS_PER_PAGE)

theorem take_min_length {α : Type} (l : List α) (n : Nat) :
    l.take (min n l.length) = l.take n := by
  rcases le_total n l.length with h | h
  · rw [min_eq_left h]
  · rw [min_eq_right h, List.take_length, List.take_of_length_le h]

/-- The slice for a page number `p ≥ 1` is the window of `ITEMS_PER_PAGE`
records at offset `(p - 1) * ITEMS_PER_PAGE`. -/
theorem currentData_eq_window {α : Type} (D : List α) (p : Int) (hp : 1 ≤ p) :
    currentData D p =
      (D.drop ((p - 1) * (ITEMS_PER_PAGE : Int)).toNat).take ITEMS_PER_PAGE := by
  unfold currentData jsSlice
  dsimp only
  have hstart : 0 ≤ (p - 1) * (ITEMS_PER_PAGE : Int) := by
    have : (0 : Int) ≤ p - 1 := by omega
    positivity
  rw [if_neg (by omega), if_neg (by omega)]
  set a := ((p - 1) * (ITEMS_PER_PAGE : Int)).toNat with ha
  have haz : (p - 1) * (ITEMS_PER_PAGE : Int) = (a : Int) := by omega
  rw [haz]
  rcases le_or_lt a D.length with hle | hlt
  · have h1 : (min (a : Int) (D.length : Int)).toNat = a := by omega
    have h2 : (min ((a : Int) + (ITEMS_PER_PAGE : Nat)) (D.length : Int)).toNat =
        min (a + ITEMS_PER_PAGE) D.length := by omega
    rw [h1, h2, take_min_length, List.drop_take]
    congr 1
    omega
  · have h1 : (min (a : Int) (D.length : Int)).toNat = D.length := by omega
    have h2 : (min ((a : Int) + (ITEMS_PER_PAGE : Nat)) (D.length : Int)).toNat =
        D.length := by omega
    rw [h1, h2, List.take_length, List.drop_length,
      List.drop_eq_nil_of_le (by omega), List.take_nil]

/-- C5: `totalPages` is the ceiling of `length / 50` (0 on the empty list),
page 1 shows the first 50 records, page `p ≥ 1` shows the window at offset
`(p-1)*50`, and any page beyond `totalPages` is empty. -/
theorem C5_pagination_spec {α : Type} (D : List α) (p : Int) :
    ((totalPages D : ℤ) = ⌈(D.length : ℚ) / (ITEMS_PER_PAGE : ℚ)⌉) ∧
    totalPages ([] : List α) = 0 ∧
    currentData D 1 = D.take ITEMS_PER_PAGE ∧
    (1 ≤ p → currentData D p =
      (D.drop (((p - 1) * (ITEMS_PER_PAGE : Int)).toNat)).take ITEMS_PER_PAGE) ∧
    ((totalPages D : ℤ) < p → currentData D p = []) := by
  have hm : D.length ≤ 50 * totalPages D ∧ 50 * totalPages D < D.length + 50 := by
    unfold totalPages ITEMS_PER_PAGE
    omega
  refine ⟨?_, ?_, ?_, fun hp => currentData_eq_window D p hp, ?_⟩
  · rw [eq_comm, Int.ceil_eq_iff]
    have hq : ((ITEMS_PER_PAGE : ℚ)) = 50 := by norm_num [ITEMS_PER_PAGE]
    rw [hq]
    have h1 : (D.length : ℚ) ≤ 50 * (totalPages D : ℚ) := by
      exact_mod_cast hm.1
    have h2 : 50 * (totalPages D : ℚ) < (D.length : ℚ) + 50 := by
      exact_mod_cast hm.2
    constructor
    · rw [lt_div_iff₀ (by norm_num : (0 : ℚ) < 50)]
      push_cast
      linarith
    · rw [div_le_iff₀ (by norm_num : (0 : ℚ) < 50)]
      push_cast
      linarith
  · norm_num [totalPages, ITEMS_PER_PAGE]
  · rw [currentData_eq_window D 1 le_rfl]
    norm_num
  · intro hgt
    have hp : 1 ≤ p := by
      have : (0 : ℤ) ≤ (totalPages D : ℤ) := by positivity
      omega
    rw [currentData_eq_window D p hp]
    rw [List.drop_eq_nil_of_le, List.take_nil]
    have hws : (D.length : ℤ) ≤ (p - 1) * (ITEMS_PER_PAGE : Int) := by
      have h1 : (D.length : ℤ) ≤ 50 * (totalPages D : ℤ) := by
        exact_mod_cast hm.1
      have h50 : ((ITEMS_PER_PAGE : Nat) : ℤ) = 50 := by norm_num [ITEMS_PER_PAGE]
      rw [h50]
      nlinarith [hgt, h1]
    omega

/-- Closed witness for C5 at a concrete list and page number. -/
theorem C5_pagination_spec_witness :
    (1 : Int) ≤ 2 ∧ (totalPages (List.range 60) : ℤ) < 3 ∧
    currentData (List.range 60) 2 =
      ((List.range 60).drop (((2 - 1) * (ITEMS_PER_PAGE : Int)).toNat)).take
        ITEMS_PER_PAGE ∧
    currentData (List.range 60) 3 = [] :=
  ⟨by norm_num, by norm_num [totalPages, ITEMS_PER_PAGE],
    (C5_pagination_spec (List.range 60) 2).2.2.2.1 (by norm_num),
    (C5_pagination_spec (List.range 60) 3).2.2.2.2
      (by norm_num [totalPages, ITEMS_PER_PAGE])⟩

/-- C10: for every integer page number, the page slice is a contiguous
segment of the filtered list of length at most `ITEMS_PER_PAGE`; the
computation is total (it is a Lean function), so it cannot raise. -/
theorem C10_slice_total_and_bounded {α : Type} (D : List α) (p : Int) :
    currentData D p <:+: D ∧ (currentData D p).length ≤ ITEMS_PER_PAGE := by
  constructor
  · unfold currentData jsSlice
    have h1 := List.drop_suffix
      ((if (p - 1) * (ITEMS_PER_PAGE : Int) < 0 then
          max ((D.length : Int) + (p - 1) * (ITEMS_PER_PAGE : Int)) 0
        else min ((p - 1) * (ITEMS_PER_PAGE : Int)) (D.length : Int)).toNat)
      (D.take (if (p - 1) * (ITEMS_PER_PAGE : Int) + (ITEMS_PER_PAGE : Nat) < 0 then
          max ((D.length : Int) + ((p - 1) * (ITEMS_PER_PAGE : Int) + (ITEMS_PER_PAGE : Nat))) 0
        else min ((p - 1) * (ITEMS_PER_PAGE : Int) + (ITEMS_PER_PAGE : Nat)) (D.length : Int)).toNat)
    have h2 := List.take_prefix
      (if (p - 1) * (ITEMS_PER_PAGE : Int) + (ITEMS_PER_PAGE : Nat) < 0 then
          max ((D.length : Int) + ((p - 1) * (ITEMS_PER_PAGE : Int) + (ITEMS_PER_PAGE : Nat))) 0
        else min ((p - 1) * (ITEMS_PER_PAGE : Int) + (ITEMS_PER_PAGE : Nat)) (D.length : Int)).toNat
      D
    exact h1.isInfix.trans h2.isInfix
  · unfold currentData jsSlice
    simp only [List.length_drop, List.length_take]
    split_ifs <;> omega

/-! ### Page-number state machine (src/App.tsx lines 18 and 155-157,
src/components/Pagination.tsx) -/

/-- The integers from `a` to `b` inclusive. -/
def intRange (a b : Int) : List Int :=
  (List.range (b - a + 1).toNat).map fun (i : Nat) => a + (i : Int)

/-- The numeric page buttons rendered by `getPageNumbers` in the Pagination
component (the non-numeric '...' separators are omitted; clicking them is
impossible). -/
def pageButtons (currentPage tp : Int) : List Int :=
  if tp ≤ 5 then intRange 1 tp
  else
    let sp0 := max 2 (currentPage - 1)
    let ep0 := min (tp - 1) (currentPage + 1)
    let sp := if currentPage ≤ 3 then sp0
      else if currentPage ≥ tp - 2 then tp - 3 else sp0
    let ep := if currentPage ≤ 3 then 4 else ep0
    [1] ++ intRange sp ep ++ [tp]

/-- The page numbers the Pagination component can request in a given state:
none when `totalPages ≤ 1` (the component renders nothing), otherwise the
previous page (disabled on page 1), any numeric page button, and the next
page (disabled on the last page). -/
def pageRequests (currentPage tp : Int) : List Int :=
  if tp ≤ 1 then []
  else
    (if currentPage = 1 then [] else [currentPage - 1]) ++
    pageButtons currentPage tp ++
    (if currentPage = tp then [] else [currentPage + 1])

/-- Events that change the page state in App.tsx. -/
inductive PageEvent where
  | searchChange
  | filterChange
  | pageRequest (p : Int)

/-- The page-number transition of App.tsx: a search or filter mutation
resets to page 1 (the effect at lines 155-157), and `onPageChange` stores
the requested page unchanged (`onPageChange={setCurrentPage}`). -/
def pageStep (_currentPage : Int) : PageEvent → Int
  | .searchChange => 1
  | .filterChange => 1
  | .pageRequest p => p

/-- The initial page (src/App.tsx line 18). -/
def initialPage : Int := 1

theorem mem_intRange {a b p : Int} : p ∈ intRange a b ↔ a ≤ p ∧ p ≤ b := by
  unfold intRange
  constructor
  · intro h
    obtain ⟨i, hi, hip⟩ := List.mem_map.mp h
    rw [List.mem_range] at hi
    omega
  · intro h
    apply List.mem_map.mpr
    refine ⟨(p - a).toNat, ?_, ?_⟩
    · rw [List.mem_range]
      omega
    · omega

theorem pageButtons_bounds {cp tp p : Int} (hcp1 : 1 ≤ cp) (hcp2 : cp ≤ tp)
    (hmem : p ∈ pageButtons cp tp) : 1 ≤ p ∧ p ≤ tp := by
  unfold pageButtons at hmem
  dsimp only at hmem
  split_ifs at hmem with h5 h3 h2
  all_goals simp only [List.mem_append, List.mem_singleton, mem_intRange] at hmem
  all_goals omega

/-- C6: the page starts at 1; search and filter mutations reset it to 1;
when `totalPages ≤ 1` no page request can be issued (no-op); and every page
request that the component can issue from an in-range state lands in
`[1, totalPages]`. -/
theorem C6_page_state_machine :
    initialPage = 1 ∧
    (∀ cp : Int, pageStep cp .searchChange = 1 ∧ pageStep cp .filterChange = 1) ∧
    (∀ cp tp : Int, tp ≤ 1 → pageRequests cp tp = []) ∧
    (∀ cp tp p : Int, 1 ≤ cp → cp ≤ max tp 1 → p ∈ pageRequests cp tp →
      1 ≤ pageStep cp (.pageRequest p) ∧ pageStep cp (.pageRequest p) ≤ tp) := by
  refine ⟨rfl, fun cp => ⟨rfl, rfl⟩, ?_, ?_⟩
  · intro cp tp htp
    unfold pageRequests
    rw [if_pos htp]
  · intro cp tp p hcp1 hcp2 hmem
    unfold pageRequests at hmem
    by_cases h1 : tp ≤ 1
    · rw [if_pos h1] at hmem
      exact absurd hmem (List.not_mem_nil p)
    · rw [if_neg h1] at hmem
      show 1 ≤ p ∧ p ≤ tp
      rw [List.mem_append, List.mem_append] at hmem
      rcases hmem with (hmem | hmem) | hmem
      · by_cases h2 : cp = 1
        · rw [if_pos h2] at hmem
          exact absurd hmem (List.not_mem_nil p)
        · rw [if_neg h2, List.mem_singleton] at hmem
          omega
      · exact pageButtons_bounds hcp1 (by omega) hmem
      · by_cases h2 : cp = tp
        · rw [if_pos h2] at hmem
          exact absurd hmem (List.not_mem_nil p)
        · rw [if_neg h2, List.mem_singleton] at hmem
          omega

/-- Closed witness for C6: from page 5 of 10, requesting page 6 is possible
and lands in range. -/
theorem C6_page_state_machine_witness :
    (1 : Int) ≤ 5 ∧ (5 : Int) ≤ max 10 1 ∧ (6 : Int) ∈ pageRequests 5 10 ∧
    (1 ≤ pageStep 5 (.pageRequest 6) ∧ pageStep 5 (.pageRequest 6) ≤ 10) :=
  ⟨by norm_num, by norm_num, by decide,
    C6_page_state_machine.2.2.2 5 10 6 (by norm_num) (by norm_num) (by decide)⟩

end KirsalAlan
